import Mathlib

/-!
Shallow embedding of the `pressure-cooker` repository's core:
the `CircularBuffer` sliding-window structure
(`src/circular-buffer/src/lib.rs`) and the adaptive bounds-tracking
`State` built on top of it (`src/src/main.rs`).

Modelling conventions:
* Rust `usize` indices and sizes become `Nat`; `u128` timestamps become `Nat`.
* Rust `f32` temperatures and bounds are modelled as exact rationals `ℚ`;
  decimal literals such as `0.1`, `0.05`, `20.0` map to the corresponding
  rationals.  The `as i32` cast of a float is truncation toward zero,
  modelled by `ratTrunc` (the saturation of out-of-range casts is not
  modelled; all values appearing in the claims are far inside `i32` range).
* The fixed-size backing array `[T; 2*N]` becomes a `List T` of length
  `2*N`; `buffer[i] = v` becomes `List.set` and reads become `List.getD`
  (the invariant proved below keeps every access of the source in bounds,
  where the two agree with the Rust array operations).
* Rust `<[T]>::rotate_left(mid)` (defined for `mid ≤ len`) is embedded as
  `rotl`, moving the first `mid` elements to the end.
-/

/-- Truncation of a rational toward zero: the semantics of Rust's
`as i32` cast on an in-range value. -/
def ratTrunc (q : ℚ) : ℤ := if 0 ≤ q then ⌊q⌋ else ⌈q⌉

theorem ratTrunc_mono {a b : ℚ} (h : a ≤ b) : ratTrunc a ≤ ratTrunc b := by
  unfold ratTrunc
  by_cases ha : 0 ≤ a
  · rw [if_pos ha, if_pos (le_trans ha h)]
    exact Int.floor_le_floor h
  · rw [if_neg ha]
    by_cases hb : 0 ≤ b
    · rw [if_pos hb]
      calc ⌈a⌉ ≤ 0 := Int.ceil_le.mpr (by push_cast; exact le_of_not_le ha)
        _ ≤ ⌊b⌋ := Int.floor_nonneg.mpr hb
    · rw [if_neg hb]
      exact Int.ceil_le_ceil h

theorem ratTrunc_intCast (z : ℤ) : ratTrunc (z : ℚ) = z := by
  unfold ratTrunc
  split <;> simp

/-- Rust `<[T]>::rotate_left(mid)`: rotate so the element at index `mid`
comes first (defined in the source only for `mid ≤ len`, which the buffer
invariant guarantees at the single call site `shift_start`). -/
def rotl (l : List α) (mid : Nat) : List α := l.drop mid ++ l.take mid

theorem rotl_length (l : List α) (mid : Nat) (h : mid ≤ l.length) :
    (rotl l mid).length = l.length := by
  simp [rotl]
  omega

/-- `CircularBuffer<T, N>` from `src/circular-buffer/src/lib.rs`.
The capacity `N` is a const generic in Rust; here it is passed to each
operation.  `buffer` is the `[T; 2*N]` backing array, `start` the index of
the oldest element, `size` the number of active elements. -/
structure CircularBuffer (T : Type) where
  buffer : List T
  start : Nat
  size : Nat
  deriving Repr, DecidableEq

namespace CircularBuffer

variable {T U : Type} [Inhabited T] [Inhabited U]

/-- `CircularBuffer::new()`: `2*N` default-initialized slots, `start = 0`,
`size = 0`. -/
def new (T : Type) [Inhabited T] (N : Nat) : CircularBuffer T :=
  ⟨List.replicate (2 * N) default, 0, 0⟩

/-- `CircularBuffer::is_full()`. -/
def isFull (N : Nat) (b : CircularBuffer T) : Bool := b.size == N

/-- `CircularBuffer::last()`: copy of the oldest element `buffer[start]`,
`None` if empty. -/
def last (b : CircularBuffer T) : Option T :=
  if b.size = 0 then none else some (b.buffer.getD b.start default)

/-- `CircularBuffer::head()`: copy of the newest element
`buffer[end() - 1]`, `None` if empty. -/
def head (b : CircularBuffer T) : Option T :=
  if b.size = 0 then none else some (b.buffer.getD (b.start + b.size - 1) default)

/-- `CircularBuffer::end()`: index of the next element to be pushed
(named `endIdx` because `end` is a Lean keyword). -/
def endIdx (b : CircularBuffer T) : Nat := b.start + b.size

/-- `CircularBuffer::shift_start()`: `buffer.rotate_left(start); start = 0`. -/
def shiftStart (b : CircularBuffer T) : CircularBuffer T :=
  { b with buffer := rotl b.buffer b.start, start := 0 }

/-- `CircularBuffer::push(value)`, statement by statement:
`buffer[end()] = value`; `if size == N { start += 1 }`;
`if size < N { size += 1 }`; `if start + size >= 2*N { shift_start() }`. -/
def push (N : Nat) (b : CircularBuffer T) (value : T) : CircularBuffer T :=
  let b1 : CircularBuffer T := { b with buffer := b.buffer.set b.endIdx value }
  let b2 : CircularBuffer T := if b1.size = N then { b1 with start := b1.start + 1 } else b1
  let b3 : CircularBuffer T := if b2.size < N then { b2 with size := b2.size + 1 } else b2
  if 2 * N ≤ b3.start + b3.size then b3.shiftStart else b3

/-- `CircularBuffer::as_slice()`: the view `&buffer[start .. start + size]`. -/
def asSlice (b : CircularBuffer T) : List T :=
  (b.buffer.drop b.start).take b.size

/-- The elements produced by `CircularBufferIter` (`into_iter`), in order:
`buffer[start + index]` for `index` in `0 .. size`. -/
def iterList (b : CircularBuffer T) : List T :=
  (List.range b.size).map (fun i => b.buffer.getD (b.start + i) default)

/-- The loop body of `CircularBuffer::zip_with`: for `i` in `0 .. m`,
`f(&mut buffer[start + i], &other.buffer[otherStart + i])`.  Only
`self.buffer` is mutated by the loop, so it is embedded as a fold on the
backing list. -/
def zipLoop (f : T → U → T) (oBuf : List U) (s os : Nat) (m : Nat)
    (buf : List T) : List T :=
  (List.range m).foldl
    (fun acc i => acc.set (s + i) (f (acc.getD (s + i) default) (oBuf.getD (os + i) default)))
    buf

/-- `CircularBuffer::zip_with(other, f)`: applies `f` to the oldest
elements of `self` and `other`, then the next oldest, and so on, for
`i` in `0 .. self.size.min(other.size)`, mutating `self.buffer` in place. -/
def zipWith (b : CircularBuffer T) (other : CircularBuffer U)
    (f : T → U → T) : CircularBuffer T :=
  { b with buffer := zipLoop f other.buffer b.start other.start (min b.size other.size) b.buffer }

/-- The representation invariant of the buffer: the backing list has
length `2*N`, at most `N` elements are active, and the active region
`[start, start + size)` lies strictly inside the backing store (so the
write `buffer[end()]` in `push` is in bounds). -/
def Inv (N : Nat) (b : CircularBuffer T) : Prop :=
  b.buffer.length = 2 * N ∧ b.size ≤ N ∧ b.start + b.size < 2 * N

theorem inv_new (T : Type) [Inhabited T] (N : Nat) (hN : 1 ≤ N) :
    Inv N (new T N) := by
  refine ⟨by simp [new], by simp [new], ?_⟩
  simp [new]
  omega

omit [Inhabited T] in
theorem length_asSlice {N : Nat} {b : CircularBuffer T} (h : Inv N b) :
    b.asSlice.length = b.size := by
  obtain ⟨hlen, _, hlt⟩ := h
  simp [asSlice]
  omega

omit [Inhabited T] in
theorem set_drop_comm (l : List T) {s k : Nat} (v : T) (h : s ≤ k) :
    (l.set k v).drop s = (l.drop s).set (k - s) v := by
  rw [List.drop_set, if_neg (by omega)]

omit [Inhabited T] in
theorem take_set_last (xs : List T) {k : Nat} (v : T) (h : k < xs.length) :
    (xs.set k v).take (k + 1) = xs.take k ++ [v] := by
  rw [List.set_eq_take_append_cons_drop, if_pos h, List.take_append_eq_append_take,
    List.take_take, List.length_take]
  have h1 : min (k + 1) k = k := by omega
  have h2 : k + 1 - min k xs.length = 1 := by omega
  rw [h1, h2]
  simp

/-- The model of one push at the level of the slice of active elements:
append the new value, dropping the oldest element when the window already
holds `N` elements. -/
def mpush (N : Nat) (l : List T) (v : T) : List T :=
  if l.length = N then l.drop 1 ++ [v] else l ++ [v]

omit [Inhabited T] in
/-- `push` preserves the representation invariant, and acts on the active
slice exactly as the model `mpush`: the new value is appended and, when
the window was full, the oldest element is evicted. -/
theorem push_sim {N : Nat} {b : CircularBuffer T} (v : T)
    (h : Inv N b) (hN : 1 ≤ N) :
    Inv N (push N b v) ∧ (push N b v).asSlice = mpush N b.asSlice v := by
  obtain ⟨hlen, hsz, hlt⟩ := h
  have hslice : b.asSlice.length = b.size := length_asSlice ⟨hlen, hsz, hlt⟩
  by_cases hfull : b.size = N
  · -- full window: start advances, size stays N
    have hpush : push N b v =
        if 2 * N ≤ b.start + 1 + N then
          shiftStart ⟨b.buffer.set (b.start + b.size) v, b.start + 1, N⟩
        else ⟨b.buffer.set (b.start + b.size) v, b.start + 1, N⟩ := by
      simp [push, endIdx, hfull]
    have hkey : ((b.buffer.set (b.start + b.size) v).drop (b.start + 1)).take N
        = mpush N b.asSlice v := by
      rw [set_drop_comm _ v (by omega)]
      have hsub : b.start + b.size - (b.start + 1) = N - 1 := by omega
      have hlt1 : N - 1 < (b.buffer.drop (b.start + 1)).length := by
        rw [List.length_drop]; omega
      have hN1 : N - 1 + 1 = N := by omega
      have hts := take_set_last (b.buffer.drop (b.start + 1)) v hlt1
      rw [hN1] at hts
      rw [hsub, hts]
      rw [mpush, if_pos (by rw [hslice, hfull])]
      rw [asSlice, List.drop_take, ← List.drop_drop, hfull]
    constructor
    · -- invariant preservation
      rw [hpush]
      split
      · refine ⟨?_, le_refl N, ?_⟩
        · simp [shiftStart, rotl_length, hlen]
          rw [rotl_length _ _ (by rw [List.length_set]; omega)]
          simpa using hlen
        · simp [shiftStart]; omega
      · exact ⟨by simpa using hlen, le_refl N, by simp; omega⟩
    · rw [hpush]
      split
      · rename_i hc
        have hse : b.start + 1 + N = 2 * N := by omega
        rw [shiftStart, asSlice]
        simp only [rotl, List.drop_zero]
        rw [List.take_append_of_le_length (by rw [List.length_drop, List.length_set]; omega)]
        exact hkey
      · exact hkey
  · -- not full: start stays, size grows by one
    have hlt' : b.size < N := by omega
    have hpush : push N b v =
        if 2 * N ≤ b.start + (b.size + 1) then
          shiftStart ⟨b.buffer.set (b.start + b.size) v, b.start, b.size + 1⟩
        else ⟨b.buffer.set (b.start + b.size) v, b.start, b.size + 1⟩ := by
      simp [push, endIdx, hfull, hlt']
    have hkey : ((b.buffer.set (b.start + b.size) v).drop b.start).take (b.size + 1)
        = mpush N b.asSlice v := by
      rw [set_drop_comm _ v (by omega)]
      have hsub : b.start + b.size - b.start = b.size := by omega
      have hltb : b.size < (b.buffer.drop b.start).length := by
        rw [List.length_drop]; omega
      rw [hsub, take_set_last _ v hltb]
      rw [mpush, if_neg (by rw [hslice]; exact hfull)]
      rfl
    constructor
    · rw [hpush]
      split
      · refine ⟨?_, by simp [shiftStart]; omega, ?_⟩
        · simp [shiftStart]
          rw [rotl_length _ _ (by rw [List.length_set]; omega)]
          simpa using hlen
        · simp [shiftStart]; omega
      · exact ⟨by simpa using hlen, by show b.size + 1 ≤ N; omega, by simp; omega⟩
    · rw [hpush]
      split
      · rename_i hc
        rw [shiftStart, asSlice]
        simp only [rotl, List.drop_zero]
        rw [List.take_append_of_le_length (by rw [List.length_drop, List.length_set]; omega)]
        exact hkey
      · exact hkey

/-- A sequence of pushes, oldest first. -/
def pushAll (N : Nat) (b : CircularBuffer T) (xs : List T) : CircularBuffer T :=
  xs.foldl (fun acc x => acc.push N x) b

omit [Inhabited T] in
theorem pushAll_sim {N : Nat} {b : CircularBuffer T} (xs : List T)
    (h : Inv N b) (hN : 1 ≤ N) :
    Inv N (pushAll N b xs) ∧
      (pushAll N b xs).asSlice = xs.foldl (mpush N) b.asSlice := by
  induction xs generalizing b with
  | nil => exact ⟨h, rfl⟩
  | cons x xs ih =>
    obtain ⟨h1, h2⟩ := push_sim x h hN
    obtain ⟨h3, h4⟩ := ih h1
    refine ⟨h3, ?_⟩
    rw [pushAll] at h4 ⊢
    simp only [List.foldl_cons]
    rw [h4, h2]

omit [Inhabited T] in
theorem foldl_mpush (N : Nat) (hN : 1 ≤ N) :
    ∀ (xs l : List T), l.length ≤ N →
      xs.foldl (mpush N) l = (l ++ xs).drop (l.length + xs.length - N) := by
  intro xs
  induction xs with
  | nil =>
    intro l hl
    simp only [List.foldl_nil, List.append_nil, List.length_nil, Nat.add_zero]
    rw [Nat.sub_eq_zero_of_le (by omega), List.drop_zero]
  | cons x xs ih =>
    intro l hl
    simp only [List.foldl_cons]
    by_cases hfull : l.length = N
    · have hlen1 : (l.drop 1 ++ [x]).length = N := by
        rw [List.length_append, List.length_drop]
        simp
        omega
      rw [mpush, if_pos hfull, ih _ (by omega)]
      rw [hlen1]
      have h2 : N + xs.length - N = xs.length := by omega
      have h3 : l.length + (x :: xs).length - N = xs.length + 1 := by
        simp
        omega
      rw [h2, h3, List.append_assoc, List.singleton_append,
        ← List.drop_append_of_le_length (by omega), List.drop_drop,
        Nat.add_comm 1 xs.length]
    · rw [mpush, if_neg hfull, ih _ (by simp; omega)]
      have h3 : (l ++ [x]).length + xs.length = l.length + (x :: xs).length := by
        simp; omega
      rw [List.append_assoc, List.singleton_append, h3]

/-- Characterization of the `zip_with` loop on the backing list: the `m`
slots starting at `s` are combined pointwise with the `m` slots of `oBuf`
starting at `os`; everything else is untouched. -/
theorem zipLoop_eq (f : T → U → T) (oBuf : List U) (s os : Nat) :
    ∀ (m : Nat) (buf : List T), s + m ≤ buf.length → os + m ≤ oBuf.length →
      zipLoop f oBuf s os m buf =
        buf.take s ++
          List.zipWith f ((buf.drop s).take m) ((oBuf.drop os).take m) ++
          buf.drop (s + m) := by
  intro m
  induction m with
  | zero =>
    intro buf h1 h2
    simp only [zipLoop, List.range_zero, List.foldl_nil, List.take_zero,
      List.zipWith_nil_left, List.append_nil, Nat.add_zero]
    exact (List.take_append_drop s buf).symm
  | succ m ih =>
    intro buf h1 h2
    have hsm : s + m < buf.length := by omega
    have hosm : os + m < oBuf.length := by omega
    have hz : zipLoop f oBuf s os (m + 1) buf =
        (zipLoop f oBuf s os m buf).set (s + m)
          (f ((zipLoop f oBuf s os m buf).getD (s + m) default)
            (oBuf.getD (os + m) default)) := by
      rw [zipLoop, zipLoop, List.range_succ, List.foldl_append, List.foldl_cons,
        List.foldl_nil]
    rw [hz, ih buf (by omega) (by omega)]
    have hlenAB : (buf.take s ++
        List.zipWith f ((buf.drop s).take m) ((oBuf.drop os).take m)).length
        = s + m := by
      rw [List.length_append, List.length_take, List.length_zipWith,
        List.length_take, List.length_take, List.length_drop, List.length_drop]
      omega
    have hread : (buf.take s ++
          List.zipWith f ((buf.drop s).take m) ((oBuf.drop os).take m) ++
          buf.drop (s + m)).getD (s + m) default = buf[s + m] := by
      rw [List.getD_eq_getElem?_getD, List.getElem?_append_right hlenAB.le,
        hlenAB, Nat.sub_self, List.getElem?_drop, Nat.add_zero,
        List.getElem?_eq_getElem hsm, Option.getD_some]
    have hreado : oBuf.getD (os + m) default = oBuf[os + m] := by
      rw [List.getD_eq_getElem?_getD, List.getElem?_eq_getElem hosm,
        Option.getD_some]
    rw [hread, hreado]
    have hset : (buf.take s ++
          List.zipWith f ((buf.drop s).take m) ((oBuf.drop os).take m) ++
          buf.drop (s + m)).set (s + m) (f buf[s + m] oBuf[os + m])
        = (buf.take s ++
            List.zipWith f ((buf.drop s).take m) ((oBuf.drop os).take m)) ++
          (f buf[s + m] oBuf[os + m] :: buf.drop (s + m + 1)) := by
      rw [List.set_append_right _ _ hlenAB.le, hlenAB, Nat.sub_self,
        List.drop_eq_getElem_cons hsm]
      rfl
    rw [hset]
    have htake1 : (buf.drop s).take (m + 1)
        = (buf.drop s).take m ++ [buf[s + m]] := by
      rw [List.take_succ, List.getElem?_drop, List.getElem?_eq_getElem hsm]
      rfl
    have htake2 : (oBuf.drop os).take (m + 1)
        = (oBuf.drop os).take m ++ [oBuf[os + m]] := by
      rw [List.take_succ, List.getElem?_drop, List.getElem?_eq_getElem hosm]
      rfl
    have hzip : List.zipWith f ((buf.drop s).take (m + 1))
          ((oBuf.drop os).take (m + 1))
        = List.zipWith f ((buf.drop s).take m) ((oBuf.drop os).take m) ++
            [f buf[s + m] oBuf[os + m]] := by
      rw [htake1, htake2,
        List.zipWith_append f _ _ _ _ (by
          rw [List.length_take, List.length_take, List.length_drop,
            List.length_drop]
          omega)]
      rfl
    rw [hzip]
    simp [List.append_assoc, Nat.add_assoc]

/-- `zip_with` at the level of active slices: the common prefix (by age
rank) is combined elementwise with `f`, the remaining newest elements of
`self` are untouched, and `start`/`size` are unchanged. -/
theorem zipWith_asSlice {N M : Nat} {b : CircularBuffer T} {o : CircularBuffer U}
    (f : T → U → T) (hb : Inv N b) (ho : Inv M o) :
    (b.zipWith o f).asSlice =
      List.zipWith f b.asSlice o.asSlice ++ b.asSlice.drop (min b.size o.size) := by
  obtain ⟨hbl, hbs, hblt⟩ := hb
  obtain ⟨hol, hos, holt⟩ := ho
  have hm1 : b.start + min b.size o.size ≤ b.buffer.length := by omega
  have hm2 : o.start + min b.size o.size ≤ o.buffer.length := by omega
  have hzl := zipLoop_eq f o.buffer b.start o.start (min b.size o.size) b.buffer hm1 hm2
  show ((zipLoop f o.buffer b.start o.start (min b.size o.size) b.buffer).drop
      b.start).take b.size = _
  rw [hzl, List.append_assoc, List.drop_left' (by rw [List.length_take]; omega),
    List.take_append_eq_append_take]
  have hlenB : (List.zipWith f ((b.buffer.drop b.start).take (min b.size o.size))
      ((o.buffer.drop o.start).take (min b.size o.size))).length
      = min b.size o.size := by
    rw [List.length_zipWith, List.length_take, List.length_take,
      List.length_drop, List.length_drop]
    omega
  congr 1
  · rw [List.take_of_length_le (by omega)]
    have h1 : List.zipWith f b.asSlice o.asSlice
        = (List.zipWith f b.asSlice o.asSlice).take (min b.size o.size) := by
      refine (List.take_of_length_le ?_).symm
      rw [List.length_zipWith, length_asSlice ⟨hbl, hbs, hblt⟩,
        length_asSlice ⟨hol, hos, holt⟩]
    rw [h1, List.take_zipWith, asSlice, asSlice, List.take_take, List.take_take]
    have e1 : min (min b.size o.size) b.size = min b.size o.size := by omega
    have e2 : min (min b.size o.size) o.size = min b.size o.size := by omega
    rw [e1, e2]
  · rw [hlenB, asSlice, List.drop_take, List.drop_drop]

end CircularBuffer

open CircularBuffer in
/-- Claim C7: `zip_with(other, f)` combines, for each `i` below
`min(self.size, other.size)`, the `i`-th oldest element of `self` with the
`i`-th oldest element of `other` (aligned by age rank), storing the result
in `self`; the newer elements of `self` beyond the common prefix and all
of `other` are unmodified, and in particular two capacity-3 buffers
holding `[1,2,3]` and `[4,5,6]` combined with addition yield `[5,7,9]`
(the `zip_with` test of the source). -/
theorem C7_zip_with_age_aligned (T U : Type) [Inhabited T] [Inhabited U]
    (N M : Nat) (b : CircularBuffer T) (o : CircularBuffer U) (f : T → U → T)
    (hb : Inv N b) (ho : Inv M o) :
    ((b.zipWith o f).asSlice =
        List.zipWith f b.asSlice o.asSlice ++
          b.asSlice.drop (min b.size o.size) ∧
      (b.zipWith o f).start = b.start ∧ (b.zipWith o f).size = b.size) ∧
    ((pushAll 3 (new ℤ 3) [1, 2, 3]).zipWith (pushAll 3 (new ℤ 3) [4, 5, 6])
        (fun x y => x + y)).asSlice = [5, 7, 9] := by
  refine ⟨⟨zipWith_asSlice f hb ho, rfl, rfl⟩, by decide⟩

open CircularBuffer in
/-- Witness for C7: the two concrete capacity-3 buffers of the source's
`zip_with` test satisfy the invariant, and the conclusion of the theorem
holds for them. -/
theorem C7_zip_with_age_aligned_witness :
    (Inv 3 (pushAll 3 (new ℤ 3) [1, 2, 3]) ∧ Inv 3 (pushAll 3 (new ℤ 3) [4, 5, 6])) ∧
    (((pushAll 3 (new ℤ 3) [1, 2, 3]).zipWith (pushAll 3 (new ℤ 3) [4, 5, 6])
          (fun x y => x + y)).asSlice =
        List.zipWith (fun x y => x + y) (pushAll 3 (new ℤ 3) [1, 2, 3]).asSlice
            (pushAll 3 (new ℤ 3) [4, 5, 6]).asSlice ++
          (pushAll 3 (new ℤ 3) [1, 2, 3]).asSlice.drop
            (min (pushAll 3 (new ℤ 3) [1, 2, 3]).size
              (pushAll 3 (new ℤ 3) [4, 5, 6]).size)) := by
  have hb : Inv 3 (pushAll 3 (new ℤ 3) [1, 2, 3]) := ⟨by decide, by decide, by decide⟩
  have ho : Inv 3 (pushAll 3 (new ℤ 3) [4, 5, 6]) := ⟨by decide, by decide, by decide⟩
  exact ⟨⟨hb, ho⟩,
    (C7_zip_with_age_aligned ℤ ℤ 3 3 _ _ (fun x y => x + y) hb ho).1.1⟩

open CircularBuffer in
/-- Claim C1: for every capacity `N ≥ 1` and every sequence of `k` pushes
into a `CircularBuffer<T, N>` created by `new()`, `as_slice()` returns a
slice of length `min(N, k)` whose contents are the last `min(N, k)` pushed
values in push order, oldest first. -/
theorem C1_as_slice_is_last_min (T : Type) [Inhabited T] (N : Nat)
    (hN : 1 ≤ N) (xs : List T) :
    (pushAll N (new T N) xs).asSlice.length = min N xs.length ∧
    (pushAll N (new T N) xs).asSlice = xs.drop (xs.length - N) := by
  obtain ⟨hinv, hslice⟩ := pushAll_sim xs (inv_new T N hN) hN
  have hempty : (new T N).asSlice = [] := by
    simp [new, asSlice]
  rw [hslice, hempty, foldl_mpush N hN xs [] (by simp)]
  constructor
  · simp only [List.nil_append, List.length_nil, Nat.zero_add, List.length_drop]
    omega
  · simp

open CircularBuffer in
/-- Witness for C1 at capacity `N = 3` and pushes `[1, 2, 3, 4]`:
the slice is `[2, 3, 4]`, of length `min 3 4 = 3` (the `overfill1` test of
the source). -/
theorem C1_as_slice_is_last_min_witness :
    1 ≤ 3 ∧
    ((pushAll 3 (new ℤ 3) [1, 2, 3, 4]).asSlice.length = min 3 4 ∧
      (pushAll 3 (new ℤ 3) [1, 2, 3, 4]).asSlice = [2, 3, 4]) := by
  refine ⟨by norm_num, ?_⟩
  have h := C1_as_slice_is_last_min ℤ 3 (by norm_num) [1, 2, 3, 4]
  simpa using h

open CircularBuffer in
/-- Claim C8: for capacity `N ≥ 1` the invariant — backing store of size
`2N`, `size ≤ N`, active region `[start, start + size)` strictly inside
the backing store — is established by `new()` and preserved by every
`push` (whose compaction step resets `start` to `0` whenever
`start + size` would reach `2N`), and under it every backing-array access
of `push` (the write at `end()`), `head`, `last`, `as_slice` and
`zip_with` is in bounds. -/
theorem C8_active_region_invariant (T U : Type) [Inhabited T] [Inhabited U]
    (N M : Nat) (hN : 1 ≤ N) (b : CircularBuffer T) (v : T)
    (o : CircularBuffer U) (h : Inv N b) (ho : Inv M o) :
    Inv N (new T N) ∧
    Inv N (push N b v) ∧
    (2 * N ≤ b.endIdx + 1 → (push N b v).start = 0) ∧
    b.endIdx < b.buffer.length ∧
    (b.size ≠ 0 → b.start < b.buffer.length) ∧
    (b.size ≠ 0 → b.start + b.size - 1 < b.buffer.length) ∧
    b.start + b.size ≤ b.buffer.length ∧
    (∀ i < min b.size o.size,
      b.start + i < b.buffer.length ∧ o.start + i < o.buffer.length) := by
  obtain ⟨hbl, hbs, hblt⟩ := h
  obtain ⟨hol, hos, holt⟩ := ho
  refine ⟨inv_new T N hN, (push_sim v ⟨hbl, hbs, hblt⟩ hN).1, ?_, ?_, ?_, ?_, ?_, ?_⟩
  · intro hreach
    by_cases hfull : b.size = N
    · have : push N b v =
          if 2 * N ≤ b.start + 1 + N then
            shiftStart ⟨b.buffer.set (b.start + b.size) v, b.start + 1, N⟩
          else ⟨b.buffer.set (b.start + b.size) v, b.start + 1, N⟩ := by
        simp [push, endIdx, hfull]
      rw [this, if_pos (by simp only [endIdx] at hreach; omega)]
      rfl
    · have hlt' : b.size < N := by omega
      have : push N b v =
          if 2 * N ≤ b.start + (b.size + 1) then
            shiftStart ⟨b.buffer.set (b.start + b.size) v, b.start, b.size + 1⟩
          else ⟨b.buffer.set (b.start + b.size) v, b.start, b.size + 1⟩ := by
        simp [push, endIdx, hfull, hlt']
      rw [this, if_pos (by simp only [endIdx] at hreach; omega)]
      rfl
  · simp only [endIdx]; omega
  · intro _; omega
  · intro _; omega
  · omega
  · intro i hi
    constructor <;> omega

open CircularBuffer in
/-- Witness for C8 at `N = M = 1` with the concrete buffers obtained by
pushing `7` into a fresh capacity-1 integer buffer on both sides and
pushing `9` next. -/
theorem C8_active_region_invariant_witness :
    (1 ≤ 1 ∧ Inv 1 (pushAll 1 (new ℤ 1) [7]) ∧ Inv 1 (pushAll 1 (new ℤ 1) [7])) ∧
    Inv 1 (push 1 (pushAll 1 (new ℤ 1) [7]) 9) := by
  have hb : Inv 1 (pushAll 1 (new ℤ 1) [7]) := ⟨by decide, by decide, by decide⟩
  exact ⟨⟨le_refl 1, hb, hb⟩,
    (C8_active_region_invariant ℤ ℤ 1 1 (le_refl 1) (pushAll 1 (new ℤ 1) [7]) 9
      (pushAll 1 (new ℤ 1) [7]) hb hb).2.1⟩

/-- `embedded_graphics::prelude::Point`: a pair of `i32` coordinates
(used only through its `x`, `y` fields and `Default`, which is the
origin). -/
structure Point where
  x : ℤ
  y : ℤ
  deriving Repr, DecidableEq

instance : Inhabited Point := ⟨⟨0, 0⟩⟩

/-- `const W_TEXT : usize = 32`, as the `i32` it is cast to. -/
def W_TEXT : ℤ := 32

/-- The scale closure of `State::push` (line 263 of `src/src/main.rs`):
`|x| (31.0 - 30.0 * (x - self.t_low) / (self.t_high - self.t_low)) as i32`.
It contains no special case for `t_high == t_low`: in this exact-rational
model a division by zero yields `0` (the Lean convention), while in the
`f32` source it yields `NaN` or an infinity, which the saturating
`as i32` cast maps to `0` or to the extreme `i32` values. -/
def scale (tLow tHigh x : ℚ) : ℤ :=
  ratTrunc (31 - 30 * (x - tLow) / (tHigh - tLow))

/-- One iteration of the recompute loop of `State::push`:
`if t < self.t_low { self.t_low = t; } if t > self.t_high { self.t_high = t; }`
acting on the pair `(t_low, t_high)`. -/
def foldBounds (p : ℚ × ℚ) (t : ℚ) : ℚ × ℚ :=
  (if t < p.1 then t else p.1, if t > p.2 then t else p.2)

/-- `State<N>` from `src/src/main.rs`: the temperature window, the
parallel point window, the 2-slot timestamp window and the two bounds. -/
structure State where
  pastTemperatures : CircularBuffer ℚ
  pastPoints : CircularBuffer Point
  times : CircularBuffer ℕ
  tLow : ℚ
  tHigh : ℚ
  deriving Repr, DecidableEq

namespace State

/-- `State::new()`: empty windows and placeholder bounds `20.0`, `25.0`. -/
def new (N : Nat) : State :=
  { pastTemperatures := CircularBuffer.new ℚ N
    pastPoints := CircularBuffer.new Point N
    times := CircularBuffer.new ℕ 2
    tLow := 20
    tHigh := 25 }

/-- `State::time_delta()`: `Some(self.times.head()? - self.times.last()?)`
(`u128` subtraction modelled on `Nat`; the loop only ever subtracts an
older monotone-clock reading from a newer one). -/
def timeDelta (s : State) : Option ℕ :=
  match s.times.head, s.times.last with
  | some h, some l => some (h - l)
  | _, _ => none

/-- `State::push_time()`: pushes the current clock reading
`EspSystemTime.now().as_millis()` into the 2-slot `times` window; the
clock value is external input, passed here as the argument `now`. -/
def pushTime (s : State) (now : ℕ) : State :=
  { s with times := s.times.push 2 now }

/-- A sequence of `push_time` calls with the given clock readings. -/
def pushTimes (s : State) (ts : List ℕ) : State :=
  ts.foldl pushTime s

/-- `State::push(temp)`, mirroring `src/src/main.rs` lines 226-275:
capture `dropped`/`was_full`, insert, expand bounds (note the source
compares `temp > self.t_low` — the already-updated lower bound — in the
second branch), decide `may_drop_bound_temp` against the updated bounds,
optionally recompute the bounds over the whole window, rescale the stored
points, and append the new point. -/
def push (N : Nat) (s : State) (temp : ℚ) : State :=
  let dropped := s.pastTemperatures.last
  let wasFull := s.pastTemperatures.isFull N
  let pt := s.pastTemperatures.push N temp
  let tLow1 := if temp < s.tLow then temp else s.tLow
  let dirty1 := decide (temp < s.tLow)
  let tHigh1 := if temp > tLow1 then temp else s.tHigh
  let dirty2 := dirty1 || decide (temp > tLow1)
  let mayDrop := wasFull &&
    ([tLow1, tHigh1].any fun x => (dropped.map fun o => decide (|x - o| < 0.1)).getD false)
  let bounds2 : ℚ × ℚ :=
    if mayDrop then
      match pt.iterList with
      | [] => (tLow1, tHigh1)
      | t0 :: rest => rest.foldl foldBounds (t0 - 0.05, t0 + 0.05)
    else (tLow1, tHigh1)
  let pp := s.pastPoints.zipWith pt fun p t =>
    { x := p.x + 1, y := if dirty2 then scale bounds2.1 bounds2.2 t else p.y }
  let pp2 := pp.push N { x := W_TEXT, y := scale bounds2.1 bounds2.2 temp }
  { s with
      pastTemperatures := pt
      pastPoints := pp2
      tLow := bounds2.1
      tHigh := bounds2.2 }

end State

/-- `ratTrunc` of an integer-valued rational numeral. -/
theorem ratTrunc_thirtyone : ratTrunc (31 : ℚ) = 31 := by
  rw [show ((31 : ℚ)) = ((31 : ℤ) : ℚ) by norm_num, ratTrunc_intCast]

theorem ratTrunc_one : ratTrunc (1 : ℚ) = 1 := by
  rw [show ((1 : ℚ)) = ((1 : ℤ) : ℚ) by norm_num, ratTrunc_intCast]

/-- Claim C2 (code bug): the claim says a sample strictly inside
`[t_low, t_high]` leaves both bounds unchanged on the cheap path, but the
source's second comparison is `temp > self.t_low` (the already-updated
lower bound) instead of `temp > self.t_high`, so pushing `22.0` into the
fresh state (bounds `20.0`/`25.0`, window not full, so the recompute
cannot run) *sets* `t_high` to `22.0`, tightening it. -/
theorem C2_inside_sample_tightens_t_high :
    (State.new 3).tLow < 22 ∧ (22 : ℚ) < (State.new 3).tHigh ∧
    (State.push 3 (State.new 3) 22).tLow = 20 ∧
    (State.push 3 (State.new 3) 22).tHigh = 22 := by
  refine ⟨by norm_num [State.new], by norm_num [State.new], by decide, by decide⟩

/-- Claim C3 (code bug): in a push where the recompute trigger does not
fire (here the window was not even full, so `may_drop_bound_temp` is
necessarily false), the claim says neither bound tightens; but pushing
`23.0` into the fresh state drops `t_high` from `25.0` to `23.0`. -/
theorem C3_bound_tightens_without_recompute :
    (State.new 3).pastTemperatures.isFull 3 = false ∧
    (State.push 3 (State.new 3) 23).tHigh < (State.new 3).tHigh := by
  exact ⟨by decide, by decide⟩

/-- Claim C5 (code bug): the scale closure has no special case for
`t_high == t_low`.  Evaluated at `t_low = t_high = 20` on input `20`, the
embedded closure (with the exact-rational convention `q / 0 = 0`) returns
row `31`, not the midpoint row `16`; in the `f32` source the same
expression computes `(31.0 - 30.0 * 0.0 / 0.0) as i32 = (31.0 - NaN) as
i32 = 0` — under either semantics the result is not the midpoint row. -/
theorem C5_scale_unguarded_not_midpoint :
    scale 20 20 20 ≠ 16 ∧ scale 20 20 20 = 31 := by
  have h : scale 20 20 20 = 31 := by
    rw [scale, sub_self, div_zero, sub_zero, ratTrunc_thirtyone]
  exact ⟨by rw [h]; decide, h⟩

/-- Claim C6: for fixed bounds with `t_low < t_high` the scale closure is
monotonically non-increasing in the input temperature, and maps `t_low`
to the low pixel row `31` and `t_high` to the high pixel row `1`. -/
theorem C6_scale_monotone_and_endpoints (tLow tHigh : ℚ) (hlt : tLow < tHigh) :
    (∀ x y : ℚ, x ≤ y → scale tLow tHigh y ≤ scale tLow tHigh x) ∧
    scale tLow tHigh tLow = 31 ∧ scale tLow tHigh tHigh = 1 := by
  have hd : 0 < tHigh - tLow := by linarith
  refine ⟨?_, ?_, ?_⟩
  · intro x y hxy
    apply ratTrunc_mono
    have h1 : (x - tLow) / (tHigh - tLow) ≤ (y - tLow) / (tHigh - tLow) :=
      (div_le_div_iff_of_pos_right hd).mpr (by linarith)
    have h2 : 30 * ((x - tLow) / (tHigh - tLow)) ≤ 30 * ((y - tLow) / (tHigh - tLow)) := by
      linarith
    rw [mul_div_assoc, mul_div_assoc]
    linarith
  · have e : (31 : ℚ) - 30 * (tLow - tLow) / (tHigh - tLow) = 31 := by
      rw [sub_self, mul_zero, zero_div, sub_zero]
    rw [scale, e, ratTrunc_thirtyone]
  · have e : (31 : ℚ) - 30 * (tHigh - tLow) / (tHigh - tLow) = 1 := by
      rw [mul_div_assoc, div_self (ne_of_gt hd), mul_one]
      norm_num
    rw [scale, e, ratTrunc_one]

/-- Witness for C6 at `t_low = 20 < 25 = t_high`, instantiating the
monotonicity component at `21 ≤ 23`. -/
theorem C6_scale_monotone_and_endpoints_witness :
    (20 : ℚ) < 25 ∧
    (scale 20 25 23 ≤ scale 20 25 21 ∧ scale 20 25 20 = 31 ∧ scale 20 25 25 = 1) := by
  refine ⟨by norm_num, ?_, ?_, ?_⟩
  · exact (C6_scale_monotone_and_endpoints 20 25 (by norm_num)).1 21 23 (by norm_num)
  · exact (C6_scale_monotone_and_endpoints 20 25 (by norm_num)).2.1
  · exact (C6_scale_monotone_and_endpoints 20 25 (by norm_num)).2.2

/-- Under the invariant, `last()` (the oldest element) is the first
element of `as_slice()`. -/
theorem CircularBuffer.last_eq_head?_asSlice {T : Type} [Inhabited T] {N : Nat}
    {b : CircularBuffer T} (h : CircularBuffer.Inv N b) :
    b.last = b.asSlice.head? := by
  obtain ⟨hl, hs, hlt⟩ := h
  by_cases hz : b.size = 0
  · rw [CircularBuffer.last, if_pos hz, CircularBuffer.asSlice, hz, List.take_zero]
    rfl
  · rw [CircularBuffer.last, if_neg hz, List.head?_eq_getElem?, CircularBuffer.asSlice,
      List.getElem?_take_of_lt (by omega), List.getElem?_drop, Nat.add_zero,
      List.getElem?_eq_getElem (by omega), List.getD_eq_getElem?_getD,
      List.getElem?_eq_getElem (by omega), Option.getD_some]

/-- Under the invariant, `head()` (the newest element) is the final
element of `as_slice()`. -/
theorem CircularBuffer.head_eq_getLast?_asSlice {T : Type} [Inhabited T] {N : Nat}
    {b : CircularBuffer T} (h : CircularBuffer.Inv N b) :
    b.head = b.asSlice.getLast? := by
  obtain ⟨hl, hs, hlt⟩ := h
  by_cases hz : b.size = 0
  · rw [CircularBuffer.head, if_pos hz, CircularBuffer.asSlice, hz, List.take_zero]
    rfl
  · rw [CircularBuffer.head, if_neg hz, List.getLast?_eq_getElem?,
      length_asSlice ⟨hl, hs, hlt⟩, CircularBuffer.asSlice,
      List.getElem?_take_of_lt (by omega), List.getElem?_drop,
      show b.start + (b.size - 1) = b.start + b.size - 1 by omega,
      List.getElem?_eq_getElem (by omega), List.getD_eq_getElem?_getD,
      List.getElem?_eq_getElem (by omega), Option.getD_some]

/-- `time_delta` in terms of the slice of the `times` window: the newest
minus the oldest recorded timestamp, `none` when none are recorded. -/
theorem State.timeDelta_spec {s : State} (h : CircularBuffer.Inv 2 s.times) :
    s.timeDelta =
      match s.times.asSlice.head?, s.times.asSlice.getLast? with
      | some l, some hh => some (hh - l)
      | _, _ => none := by
  have h1 : s.times.head = s.times.asSlice.getLast? :=
    CircularBuffer.head_eq_getLast?_asSlice h
  have h2 : s.times.last = s.times.asSlice.head? :=
    CircularBuffer.last_eq_head?_asSlice h
  unfold State.timeDelta
  rw [h1, h2]
  cases hc : s.times.asSlice with
  | nil => rfl
  | cons a rest =>
    rcases hg : (a :: rest).getLast? with _ | g
    · rw [List.getLast?_eq_none_iff] at hg
      exact absurd hg (by simp)
    · rfl

/-- Claim C4, counterexample: after a single `push_time` the `times`
window holds one timestamp — fewer than two — yet `time_delta()` returns
`Some(0)` (`head()` and `last()` both return that one timestamp), not
`None` as the claim states. -/
theorem C4_single_timestamp_counterexample :
    ((State.new 3).pushTime 100).times.size = 1 ∧
    ((State.new 3).pushTime 100).timeDelta = some 0 := by
  exact ⟨by decide, by decide⟩

open CircularBuffer in
/-- Claim C4 as amended: for any sequence of recorded timestamps,
`time_delta()` is `None` exactly when no timestamp has been recorded;
otherwise it returns newest − oldest of the (at most 2-slot) window — in
particular `Some 0` when exactly one timestamp exists. -/
theorem C4_time_delta_window (n : Nat) (ts : List ℕ) :
    ((State.new n).pushTimes ts).timeDelta =
      match (ts.drop (ts.length - 2)).head?, (ts.drop (ts.length - 2)).getLast? with
      | some l, some h => some (h - l)
      | _, _ => none := by
  have ht : ∀ (u : List ℕ) (s : State), (s.pushTimes u).times = pushAll 2 s.times u := by
    intro u
    induction u with
    | nil => intro s; rfl
    | cons t u ih =>
      intro s
      rw [State.pushTimes, List.foldl_cons, ← State.pushTimes, ih]
      rfl
  have htimes : ((State.new n).pushTimes ts).times = pushAll 2 (new ℕ 2) ts := by
    rw [ht]
    rfl
  have hsim := pushAll_sim (b := new ℕ 2) ts (inv_new ℕ 2 (by norm_num)) (by norm_num)
  have hsl : (pushAll 2 (new ℕ 2) ts).asSlice = ts.drop (ts.length - 2) := by
    rw [hsim.2, show (new ℕ 2).asSlice = [] from rfl,
      foldl_mpush 2 (by norm_num) ts [] (by simp)]
    simp
  rw [State.timeDelta_spec (htimes ▸ hsim.1), htimes, hsl]

/-- Claim C9: `t_low ≤ t_high` holds in the initial state (`20.0 ≤ 25.0`)
and is preserved by `State::push`, through both the cheap expansion path
and the full-recompute path. -/
theorem C9_bounds_ordered (n : Nat) (s : State) (temp : ℚ)
    (h : s.tLow ≤ s.tHigh) :
    (State.new n).tLow ≤ (State.new n).tHigh ∧
    (State.push n s temp).tLow ≤ (State.push n s temp).tHigh := by
  constructor
  · norm_num [State.new]
  · have hfold : ∀ (l : List ℚ) (p : ℚ × ℚ), p.1 ≤ p.2 →
        (l.foldl foldBounds p).1 ≤ (l.foldl foldBounds p).2 := by
      intro l
      induction l with
      | nil => intro p hp; exact hp
      | cons t l ih =>
        intro p hp
        rw [List.foldl_cons]
        apply ih
        rw [foldBounds]
        by_cases h1 : t < p.1 <;> by_cases h2 : t > p.2 <;>
          simp only [foldBounds, h1, h2, if_true, if_false] <;> simp_all
    simp only [State.push]
    set a := if temp < s.tLow then temp else s.tLow with ha
    set c := if temp > a then temp else s.tHigh with hc
    have hexp : a ≤ c := by
      rw [ha, hc]
      by_cases h1 : temp < s.tLow
      · rw [if_pos h1]
        split
        · linarith
        · linarith
      · rw [if_neg h1]
        split
        · rename_i h2
          linarith
        · exact h
    split
    · split
      · exact hexp
      · apply hfold
        dsimp only
        linarith
    · exact hexp

/-- Witness for C9 at the fresh state and sample `22.0`. -/
theorem C9_bounds_ordered_witness :
    (State.new 3).tLow ≤ (State.new 3).tHigh ∧
    ((State.new 3).tLow ≤ (State.new 3).tHigh ∧
      (State.push 3 (State.new 3) 22).tLow ≤ (State.push 3 (State.new 3) 22).tHigh) :=
  ⟨by norm_num [State.new],
    C9_bounds_ordered 3 (State.new 3) 22 (by norm_num [State.new])⟩

/-- `push` changes `size` as a function of the old `size` and `N` only. -/
theorem CircularBuffer.size_push_eq {T : Type} [Inhabited T] (N : Nat)
    (b : CircularBuffer T) (v : T) :
    (CircularBuffer.push N b v).size = if b.size < N then b.size + 1 else b.size := by
  rw [CircularBuffer.push]
  by_cases hfull : b.size = N
  · have h1 : ¬ b.size < N := by omega
    simp [hfull, h1, CircularBuffer.shiftStart]
    split <;> rfl
  · by_cases h2 : b.size < N
    · simp [hfull, h2, CircularBuffer.shiftStart]
      split <;> rfl
    · simp [hfull, h2, CircularBuffer.shiftStart]
      split <;> rfl

/-- `zip_with` never changes `size`. -/
theorem CircularBuffer.size_zipWith {T U : Type} [Inhabited T] [Inhabited U]
    (b : CircularBuffer T) (o : CircularBuffer U) (f : T → U → T) :
    (b.zipWith o f).size = b.size := rfl

/-- Claim C10: `past_points.size == past_temperatures.size` holds in the
initial state and is preserved by `State::push` — both windows receive
exactly one `push` per call (and `zip_with` does not change sizes), so
they grow and evict in lockstep. -/
theorem C10_windows_lockstep (n : Nat) (s : State) (temp : ℚ)
    (h : s.pastPoints.size = s.pastTemperatures.size) :
    (State.new n).pastPoints.size = (State.new n).pastTemperatures.size ∧
    (State.push n s temp).pastPoints.size =
      (State.push n s temp).pastTemperatures.size := by
  refine ⟨rfl, ?_⟩
  simp only [State.push]
  rw [CircularBuffer.size_push_eq, CircularBuffer.size_push_eq,
    CircularBuffer.size_zipWith, h]

/-- Witness for C10 at the fresh capacity-2 state and sample `21.0`. -/
theorem C10_windows_lockstep_witness :
    (State.new 2).pastPoints.size = (State.new 2).pastTemperatures.size ∧
    ((State.new 2).pastPoints.size = (State.new 2).pastTemperatures.size ∧
      (State.push 2 (State.new 2) 21).pastPoints.size =
        (State.push 2 (State.new 2) 21).pastTemperatures.size) :=
  ⟨rfl, C10_windows_lockstep 2 (State.new 2) 21 rfl⟩
